import Mathlib

/-
Verification of the consensus S-DRS engine of cvxconsensus
(`cvxconsensus/consensus.py` and `cvxconsensus/acceleration.py`).

Modelling conventions:
* Variable ids (Python dictionary keys, `var.id`) are natural numbers.
* Numpy arrays are modelled entrywise by rationals: every array operation
  appearing in the verified code paths (addition, subtraction, scalar
  multiplication, division by a scalar) acts componentwise, so a single
  rational entry is a faithful stand-in for one tensor slot; float
  arithmetic is idealised as exact rational arithmetic.
* Python dicts carrying per-variable values are association lists
  `List (Nat x Rat)` in insertion order; `defaultdict(float)` counters and
  dicts only ever read through a fixed key list are total functions.
* Exceptions (`raise RuntimeError`, `raise ValueError`, `KeyError`,
  `IndexError`) are modelled with `Except`.
* `np.linalg.norm(-, 2)` is an external numeric routine whose value never
  matters to the verified properties; the coordinator model carries it as
  an environment parameter `normFn`.
-/

/-! ## Model definitions -/

instance {ε α : Type} [DecidableEq ε] [DecidableEq α] : DecidableEq (Except ε α) :=
  fun a b =>
    match a, b with
    | .ok x, .ok y =>
        decidable_of_iff (x = y)
          (Iff.intro (fun h => by rw [h]) (fun h => by injection h))
    | .ok _, .error _ => isFalse (fun h => Except.noConfusion h)
    | .error _, .ok _ => isFalse (fun h => Except.noConfusion h)
    | .error e, .error f =>
        decidable_of_iff (e = f)
          (Iff.intro (fun h => by rw [h]) (fun h => by injection h))

/-- Solver status codes as classified by `cvxpy.settings`; only the four
`INF_OR_UNB` members make `w_project` abort. -/
inductive Status where
  | optimal
  | optimalInaccurate
  | infeasible
  | infeasibleInaccurate
  | unbounded
  | unboundedInaccurate
  | solverError
  deriving DecidableEq, Repr

/-- Membership test for `cvxpy.settings.INF_OR_UNB` used at
`consensus.py:76`. -/
def isInfOrUnb : Status → Bool
  | Status.infeasible => true
  | Status.infeasibleInaccurate => true
  | Status.unbounded => true
  | Status.unboundedInaccurate => true
  | _ => false

/-- A Python dict mapping variable ids to (entrywise-modelled) arrays,
kept in insertion order. -/
abbrev VMap := List (Nat × ℚ)

/-- The key view of a dict (`d.keys()` in insertion order). -/
def vKeys (m : VMap) : List Nat := m.map Prod.fst

/-- First entry of an association list at a key (Python dict lookup;
association lists built from dicts have no duplicate keys, so the first
match is the value). -/
def findEntry : List (Nat × ℚ) → Nat → Option (Nat × ℚ)
  | [], _ => none
  | p :: rest, q => if p.1 = q then some p else findEntry rest q

/-- Dict lookup `m[key]` returning `none` on a missing key
(a `KeyError` site in Python). -/
def vFind (m : VMap) (q : Nat) : Option ℚ := (findEntry m q).map Prod.snd

/-- Errors that `w_project` (`consensus.py:67-95`) can raise:
the `RuntimeError` for an infeasible/unbounded proximal status, the
`KeyError` from `s_half[key]` on a key the coordinator does not track,
and the `RuntimeError` for mismatched key sets. -/
inductive PErr where
  | infOrUnb
  | keyError
  | mismatch
  deriving DecidableEq, Repr

/-- One `ys_diff[key].append(v)` step on the insertion-ordered model of
`defaultdict(list)`. -/
def dictAppend : List (Nat × List ℚ) → Nat → ℚ → List (Nat × List ℚ)
  | [], key, v => [(key, [v])]
  | (k, vs) :: rest, key, v =>
      if k = key then (k, vs ++ [v]) :: rest else (k, vs) :: dictAppend rest key v

/-- The list stored in the `ys_diff` accumulator at a key (`[]` when the
key was never appended, as for `defaultdict(list)`). -/
def dictGetList : List (Nat × List ℚ) → Nat → List ℚ
  | [], _ => []
  | (k, vs) :: rest, q => if k = q then vs else dictGetList rest q

/-- One `var_cnt[key] += 1.0` step on the `defaultdict(float)` counter. -/
def bump (c : Nat → ℚ) (key : Nat) : Nat → ℚ :=
  fun q => if q = key then c q + 1 else c q

/-- The accumulator pair `(ys_diff, var_cnt)` of `w_project`. -/
abbrev WAcc := List (Nat × List ℚ) × (Nat → ℚ)

/-- Inner loop of `w_project` (`consensus.py:80-82`): for each reported
key, append `y_half[key] - s_half[key]` and count the report; a key the
coordinator does not track raises `KeyError` at `s_half[key]`. -/
def accumEntries (s_half : VMap) : VMap → WAcc → Except PErr WAcc
  | [], acc => .ok acc
  | (key, v) :: rest, acc =>
      match vFind s_half key with
      | none => .error PErr.keyError
      | some sv => accumEntries s_half rest (dictAppend acc.1 key (v - sv), bump acc.2 key)

/-- Outer loop of `w_project` (`consensus.py:74-82`): per worker, first the
`INF_OR_UNB` status check, then the per-key accumulation. -/
def accumAll (s_half : VMap) : List (Status × VMap) → WAcc → Except PErr WAcc
  | [], acc => .ok acc
  | (stat, y_half) :: rest, acc =>
      if isInfOrUnb stat then .error PErr.infOrUnb
      else
        match accumEntries s_half y_half acc with
        | .error e => .error e
        | .ok acc2 => accumAll s_half rest acc2

/-- Python set equality of two key lists
(`set(s_half.keys()) != set(ys_diff.keys())`, `consensus.py:84`). -/
def listSetEq (a b : List Nat) : Bool :=
  a.all (fun x => b.contains x) && b.all (fun x => a.contains x)

/-- Projection step `w_project(prox_res, s_half)` of `consensus.py:67-95`:
accumulate `y_half_i[key] - s_half[key]` per key over all workers, check
the key sets agree, then return
`mat_term[key] = ys_sum / (1 + var_cnt[key])` and
`z_new[key] = s_half[key] + ys_sum - var_cnt[key] * mat_term[key]`. -/
def w_project (prox_res : List (Status × VMap)) (s_half : VMap) :
    Except PErr (VMap × VMap) :=
  match accumAll s_half prox_res ([], fun _ => 0) with
  | .error e => .error e
  | .ok (ysDiff, varCnt) =>
      if listSetEq (vKeys s_half) (ysDiff.map Prod.fst) then
        let mat_term : VMap := s_half.map fun p =>
          (p.1, (dictGetList ysDiff p.1).sum / (1 + varCnt p.1))
        let z_new : VMap := s_half.map fun p =>
          (p.1, p.2 + (dictGetList ysDiff p.1).sum
                  - varCnt p.1 * ((dictGetList ysDiff p.1).sum / (1 + varCnt p.1)))
        .ok (mat_term, z_new)
      else .error PErr.mismatch

/-- The list of differences `y_half_i[key] - s_half[key]` over the workers
whose report holds `key`, in worker order (the claims' "list of diffs"). -/
def diffsList (prox_res : List (Status × VMap)) (s_half : VMap) (key : Nat) : List ℚ :=
  prox_res.filterMap fun p =>
    (vFind p.2 key).map fun v => v - (vFind s_half key).getD 0

/-- The number of workers whose report holds `key` (the claims' `n`). -/
def countHolders (prox_res : List (Status × VMap)) (key : Nat) : Nat :=
  (prox_res.filter fun p => (vKeys p.2).contains key).length

/-- The diffs contributed by one worker report at a key: one entry
`y_half[key] - s_half[key]` for each occurrence of `key` in the report. -/
def entryDiffs (s_half : VMap) (entries : VMap) (q : Nat) : List ℚ :=
  entries.filterMap fun p =>
    if p.1 = q then (vFind s_half q).map (fun sv => p.2 - sv) else none

/-- The diffs contributed by all worker reports at a key, in worker order. -/
def allDiffs (s_half : VMap) (prox_res : List (Status × VMap)) (q : Nat) : List ℚ :=
  (prox_res.map fun p => entryDiffs s_half p.2 q).flatten

/-- The union (in report order) of the keys reported by all workers. -/
def unionKeys (prox_res : List (Status × VMap)) : List Nat :=
  (prox_res.map fun p => vKeys p.2).flatten

/-- Value at row `i` of the matrix-vector product `primals * w`, the
columns of `primals` being the stacked residual snapshots. -/
def dwRow (cols : List (Nat → ℚ)) (w : List ℚ) (i : Nat) : ℚ :=
  ((List.zip w cols).map fun p => p.1 * p.2 i).sum

/-- Objective `sum_squares(primals * w)` of `dual_weights`
(`acceleration.py:49`), for residual vectors of dimension `d`. -/
def dwObj (d : Nat) (cols : List (Nat → ℚ)) (w : List ℚ) : ℚ :=
  ((List.range d).map fun i => dwRow cols w i ^ 2).sum

/-- The constraint set of `dual_weights` (`acceleration.py:50`):
`sum(w) == 1` and `w >= 0`. -/
def dwFeasible (w : List ℚ) : Prop := w.sum = 1 ∧ ∀ x ∈ w, 0 ≤ x

/-- The value returned by `dual_weights` (`acceleration.py:48-53`): the
variable has `primals.shape[1]` entries (one per window column) and the
external QP solver returns a feasible minimiser of the objective. -/
def dual_weights_opt (d : Nat) (cols : List (Nat → ℚ)) (w : List ℚ) : Prop :=
  w.length = cols.length ∧ dwFeasible w ∧
    ∀ w2 : List ℚ, w2.length = cols.length → dwFeasible w2 →
      dwObj d cols w ≤ dwObj d cols w2

/-- The single residual column used in the `dual_weights_spec` witness. -/
def dwWitnessCol : Nat → ℚ := fun _ => 2

/-- One history-window update: `hist.append(d)` followed by `hist.pop(0)`
when the length exceeds `cap1 = m_k + 1` (`consensus.py:137-139`,
identically `consensus.py:238-240`). -/
def hist_push (cap1 : Nat) (hist : List α) (d : α) : List α :=
  let h := hist ++ [d]
  if cap1 < h.length then h.drop 1 else h

/-- The window obtained by performing the round-`k` update at every round
`0, 1, ..., k` starting from the empty history, with per-round capacity
`min m k + 1` as in the source (`m_k = min(m_accel, k)`). -/
def windowIter (m : Nat) (d : Nat → α) : Nat → List α
  | 0 => hist_push (min m 0 + 1) [] (d 0)
  | k + 1 => hist_push (min m (k + 1) + 1) (windowIter m d k) (d (k + 1))

/-- Errors of the coordinator/worker loop model: the `ValueError` for a
negative `m_accel` (`consensus.py:177-178`), Python `IndexError` sites
(the `resid[k]` write, and `alpha[j]` / window`[j]` indexing), errors
raised inside `w_project`, and fuel exhaustion of the loop model (proven
unreachable from the entry point). -/
inductive RunErr where
  | valueError
  | idx
  | proj (e : PErr)
  | fuel
  deriving DecidableEq, Repr

/-- Partial weighted sum `Σ_{j<n} alpha[j] * hist[j][key]` with
Python-style `IndexError` on an out-of-range `alpha[j]` or `hist[j]`
(the loops at `consensus.py:148-149` and `consensus.py:256-257`). -/
def wSum (alpha : List ℚ) (hist : List (Nat → ℚ)) (key : Nat) : Nat → Except RunErr ℚ
  | 0 => .ok 0
  | n + 1 =>
      match wSum alpha hist key n with
      | .error e => .error e
      | .ok prev =>
          match alpha[n]?, hist[n]? with
          | some a, some h => .ok (prev + a * h key)
          | _, _ => .error RunErr.idx

/-- A worker's per-variable state: local value `x`, dual `y`, consensus
copy `z` (each a total function meaningful on the worker's key list) and
the residual history window `y_diff`. -/
structure WSt where
  x : Nat → ℚ
  y : Nat → ℚ
  z : Nat → ℚ
  hist : List (Nat → ℚ)

/-- Non-accelerated tail of one `run_worker` round
(`consensus.py:151-166`): per key, `x = z_prev + mat_term`, `z = z_new`,
`y += x - x_half`; returns the new state and the flattened residual
`x_half - x` sent for the stopping test. -/
def worker_plain_step (keys : List Nat) (st : WSt) (xHalf matTerm zNew : Nat → ℚ) :
    WSt × List ℚ :=
  let xNew : Nat → ℚ := fun key =>
    if keys.contains key then st.z key + matTerm key else st.x key
  let zNext : Nat → ℚ := fun key => if keys.contains key then zNew key else st.z key
  let yNext : Nat → ℚ := fun key =>
    if keys.contains key then st.y key + (xNew key - xHalf key) else st.y key
  let yRes := keys.map fun key => xHalf key - xNew key
  (⟨xNew, yNext, zNext, st.hist⟩, yRes)

/-- Accelerated tail of one `run_worker` round (`consensus.py:118-150`):
`m_k = min(m_accel, k)`; per key `x = z_prev + mat_term`, `z = z_new`,
residual `diff = x_half - x`; push `diff` into the history window
(capacity `m_k + 1`, oldest popped first); then the weighted dual update
`y = Σ_j alpha[j] * y_diff[j]` with the broadcast weights. -/
def worker_accel_step (keys : List Nat) (m k : Nat) (st : WSt)
    (xHalf matTerm zNew : Nat → ℚ) (alpha : List ℚ) :
    Except RunErr (WSt × List ℚ) :=
  let mk := min m k
  let xNew : Nat → ℚ := fun key =>
    if keys.contains key then st.z key + matTerm key else st.x key
  let zNext : Nat → ℚ := fun key => if keys.contains key then zNew key else st.z key
  let diff : Nat → ℚ := fun key => xHalf key - xNew key
  let yRes := keys.map fun key => diff key
  let hist2 := hist_push (mk + 1) st.hist diff
  (keys.mapM fun key => (wSum alpha hist2 key (mk + 1)).map fun v => (key, v)).bind
    fun yVals =>
      .ok (⟨xNew, fun key => ((findEntry yVals key).map Prod.snd).getD (st.y key),
            zNext, hist2⟩, yRes)

/-- The run result built at `consensus.py:284`: final consensus values,
the residual trace truncated to the rounds actually run, and the
iteration count.  (`solve_time` is wall-clock noise and not modelled.) -/
structure RunResult where
  zvals : VMap
  residuals : List ℚ
  numIters : Nat
  deriving DecidableEq, Repr

/-- Observable outcome of one call of the entry point: the returned value
or propagated exception, whether the worker processes were started
(`consensus.py:191-196`), and whether they were terminated
(`consensus.py:283`, reached only on the normal exit path). -/
structure Outcome where
  result : Except RunErr RunResult
  workersStarted : Bool
  workersTerminated : Bool
  deriving DecidableEq, Repr

/-- Environment of one run: configuration arguments plus the messages the
workers put on their pipes each round (the coordinator only observes the
pipes, so the workers are modelled as message oracles), the weight
routine `aa_weights` (imported by `consensus.py:28` from code not in this
tree; theorems that depend on it hypothesise the interface its spec
gives), and the external euclidean-norm routine. -/
structure Env where
  varKeys : List Nat
  maxIter : Nat
  epsStop : ℚ
  anderson : Bool
  mAccel : Int
  msgs : Nat → List (Status × VMap)
  wres : Nat → List (List ℚ)
  whist : Nat → List (List (Nat → ℚ) × List ℚ)
  alphaFn : List (List (Nat → ℚ)) → List ℚ
  normFn : List ℚ → ℚ

/-- Coordinator loop state: iteration counter `k`, consensus values `z`,
consensus split `s` (a total function meaningful on `varKeys`, default 0
as for `defaultdict(float)`), the pre-sized residual array, the
coordinator history window `s_diff`, and the `finished` flag. -/
structure St where
  k : Nat
  z : VMap
  s : Nat → ℚ
  resid : List ℚ
  sDiff : List (Nat → ℚ)
  finished : Bool

/-- The write `resid[k] = v` into the `np.zeros(max_iter)` array
(`consensus.py:246` / `consensus.py:275`), raising `IndexError` when `k`
is out of range. -/
def residWrite (resid : List ℚ) (k : Nat) (v : ℚ) : Except RunErr (List ℚ) :=
  if k < resid.length then .ok (resid.set k v) else .error RunErr.idx

/-- The stopping test `k >= max_iter or resid[k-1] <= eps_stop*resid[0]`
evaluated after the counter increment (`consensus.py:279-280`). -/
def stopGuard (env : Env) (r : List ℚ) (k1 : Nat) : Bool :=
  decide (env.maxIter ≤ k1) || decide (r.getD (k1 - 1) 0 ≤ env.epsStop * r.getD 0 0)

/-- Non-accelerated coordinator tail of one round (`consensus.py:259-280`):
`s[key] += z_new[key] - z[key]` over the tracked keys, residual trace
entry from the workers' flattened residuals plus the coordinator's own
`z - z_new`, then `z = z_new; k += 1` and the stopping test.  The
`z_new[key]` lookups are total with default 0; they cannot miss because
`w_project` keys its output exactly by its `s_half` argument's keys. -/
def nonAccelStep (env : Env) (st : St) (zNew : VMap) : Except RunErr St :=
  let sNext : Nat → ℚ := fun key =>
    if env.varKeys.contains key then
      st.s key + ((vFind zNew key).getD 0 - (vFind st.z key).getD 0)
    else st.s key
  let sRes := env.varKeys.map fun key => (vFind st.z key).getD 0 - (vFind zNew key).getD 0
  (residWrite st.resid st.k (env.normFn ((env.wres st.k ++ [sRes]).flatten))).bind
    fun r2 => .ok ⟨st.k + 1, zNew, sNext, r2, st.sDiff, stopGuard env r2 (st.k + 1)⟩

/-- The weighted rebuild of `s` closing an accelerated coordinator round
(`consensus.py:249-258` followed by `consensus.py:278-280`): compute the
per-key weighted combination of the `s_diff` window with the broadcast
weights (Python `IndexError` on a too-short `alpha` or window), then
advance `z`, `k` and the stopping flag. -/
def accelFinish (env : Env) (st : St) (zNew : VMap) (sd2 : List (Nat → ℚ))
    (alpha : List ℚ) (mk : Nat) (r2 : List ℚ) : Except RunErr St :=
  (env.varKeys.mapM fun key => (wSum alpha sd2 key (mk + 1)).map fun v => (key, v)).bind
    fun sVals =>
      .ok ⟨st.k + 1, zNew,
           fun key => ((findEntry sVals key).map Prod.snd).getD (st.s key),
           r2, sd2, stopGuard env r2 (st.k + 1)⟩

/-- Accelerated coordinator tail of one round (`consensus.py:222-258` and
`consensus.py:277-280`): receive each worker's `(history, residual)`,
push the coordinator residual `z - z_new` into the `s_diff` window
(capacity `m_k + 1`), write the residual trace entry, call the weight
routine on all windows, and rebuild `s[key] = Σ_j alpha[j]*s_diff[j][key]`
over the tracked keys; then `z = z_new; k += 1` and the stopping test. -/
def accelStep (env : Env) (st : St) (zNew : VMap) : Except RunErr St :=
  let mk := min env.mAccel.toNat st.k
  let yHist := env.whist st.k
  let yDiffs := yHist.map Prod.fst
  let vRes := yHist.map Prod.snd
  let diff : Nat → ℚ := fun key => (vFind st.z key).getD 0 - (vFind zNew key).getD 0
  let sRes := env.varKeys.map diff
  let sd2 := hist_push (mk + 1) st.sDiff diff
  (residWrite st.resid st.k (env.normFn ((vRes ++ [sRes]).flatten))).bind fun r2 =>
    accelFinish env st zNew sd2 (env.alphaFn (yDiffs ++ [sd2])) mk r2

/-- One iteration of the coordinator loop body (`consensus.py:211-280`):
gather the half-step messages, project with baseline `st.z` (the value
passed as `s_half` at `consensus.py:216`), then the per-mode tail. -/
def roundBody (env : Env) (st : St) : Except RunErr St :=
  match w_project (env.msgs st.k) st.z with
  | .error e => .error (RunErr.proj e)
  | .ok (_, zNew) => if env.anderson then accelStep env st zNew else nonAccelStep env st zNew

/-- The `while not finished` loop (`consensus.py:211`), with explicit
fuel; the entry point supplies `max_iter + 1`, which is shown to suffice,
so the `fuel` error is unreachable from `consensus`. -/
def loopGo (env : Env) : Nat → St → Except RunErr St
  | fuel, st =>
    if st.finished then .ok st
    else
      match fuel with
      | 0 => .error RunErr.fuel
      | fuel2 + 1 =>
          match roundBody env st with
          | .error e => .error e
          | .ok st2 => loopGo env fuel2 st2

/-- Initial coordinator state (`consensus.py:198-209`): `z` zero on the
tracked keys, `s` the empty `defaultdict(float)`, `resid = np.zeros(max_iter)`,
empty history, `k = 0`, `finished = False`. -/
def initSt (env : Env) : St :=
  ⟨0, env.varKeys.map fun key => (key, 0), fun _ => 0,
    List.replicate env.maxIter 0, [], false⟩

/-- The run entry point `consensus(p_list, ...)` (`consensus.py:168-284`):
validate `m_accel`, start the workers, run the loop, and only on the
normal exit path terminate the workers and build the result record
(`zvals`, `resid[:k]`, `num_iters`).  An exception thrown inside the loop
propagates before `p.terminate()` is reached. -/
def consensus (env : Env) : Outcome :=
  if env.mAccel < 0 then ⟨.error RunErr.valueError, false, false⟩
  else
    match loopGo env (env.maxIter + 1) (initSt env) with
    | .error e => ⟨.error e, true, false⟩
    | .ok st => ⟨.ok ⟨st.z, st.resid.take st.k, st.k⟩, true, true⟩

/-- Per-round cleanliness hypothesis: no worker report carries an
infeasible/unbounded status. -/
def StatusesOk (msgs : List (Status × VMap)) : Prop :=
  ∀ p ∈ msgs, isInfOrUnb p.1 = false

/-- Per-round key hypothesis: the union of reported keys coincides (as a
set) with the tracked key set. -/
def KeysMatch (msgs : List (Status × VMap)) (tracked : List Nat) : Prop :=
  ∀ q : Nat, q ∈ unionKeys msgs ↔ q ∈ tracked

/-- A baseline one-key, one-worker environment used by the concrete runs. -/
def zeroEnv : Env :=
  { varKeys := [0], maxIter := 1, epsStop := 0, anderson := false, mAccel := 0,
    msgs := fun _ => [(Status.optimal, [(0, 1)])],
    wres := fun _ => [[0]],
    whist := fun _ => [],
    alphaFn := fun _ => [1],
    normFn := fun l => (l.map fun x => x * x).sum }

/-- The all-zero per-key function used in the concrete worker rounds. -/
def cwZero : Nat → ℚ := fun _ => 0

/-- The all-one per-key function used in the concrete worker rounds. -/
def cwOne : Nat → ℚ := fun _ => 1

/-- A worker state with `x = y = z = 0` and an empty history window. -/
def c4St : WSt := ⟨cwZero, cwZero, cwZero, []⟩

/-- On the tracked keys the coordinator's consensus value `z` and its
split `s` agree. -/
def SplitEqZ (env : Env) (st : St) : Prop :=
  ∀ key ∈ env.varKeys, vFind st.z key = some (st.s key)

/-- The worker-side history entry used by the accelerated counterexample
environment. -/
def c2cDiff : Nat → ℚ := fun _ => 0

/-- One accelerated round: one worker, one key, half-step 4, window-1
weights `[1]` (the spec-pinned value for windows of size 1). -/
def c2cEnv : Env :=
  { zeroEnv with
    anderson := true, maxIter := 2,
    msgs := fun _ => [(Status.optimal, [(0, 4)])],
    whist := fun _ => [([c2cDiff], [0])] }

/-- Invariant maintained by the coordinator loop on clean runs. -/
def LoopInv (env : Env) (st : St) : Prop :=
  vKeys st.z = env.varKeys ∧
  st.resid.length = env.maxIter ∧
  (env.anderson = true →
    st.sDiff.length = (if st.k = 0 then 0 else min env.mAccel.toNat (st.k - 1) + 1))

/-- Cleanliness of an environment: every round's reports carry admissible
statuses and the right key sets, and (in accelerated runs) the weight
routine honours the spec interface, returning one weight per window entry
(its argument list always ends with the coordinator's own window). -/
def CleanEnv (env : Env) : Prop :=
  (∀ j, StatusesOk (env.msgs j)) ∧
  (∀ j, KeysMatch (env.msgs j) env.varKeys) ∧
  (env.anderson = true →
    ∀ ws : List (List (Nat → ℚ)), (env.alphaFn ws).length = (ws.getLastD []).length)

/-! ## Lemmas and claim theorems -/

example :
    w_project [(Status.optimal, [(0, 4)])] [(0, 0)] =
      .ok ([(0, 2)], [(0, 2)]) := by
  simp [w_project, accumAll, accumEntries, vFind, findEntry, dictAppend, dictGetList,
    bump, listSetEq, vKeys, isInfOrUnb]
  norm_num

example :
    w_project [(Status.optimal, [(0, 1)]), (Status.optimal, [(0, 1), (1, 5)])]
        [(0, 0), (1, 0)] =
      .ok ([(0, 2/3), (1, 5/2)], [(0, 2/3), (1, 5/2)]) := by
  simp [w_project, accumAll, accumEntries, vFind, findEntry, dictAppend, dictGetList,
    bump, listSetEq, vKeys, isInfOrUnb]
  norm_num

example :
    w_project [(Status.infeasible, [(0, 4)])] [(0, 0)] = .error PErr.infOrUnb := by
  simp [w_project, accumAll, isInfOrUnb]

example :
    w_project [(Status.optimal, [(0, 4), (1, 1)])] [(0, 0)] = .error PErr.keyError := by
  simp [w_project, accumAll, accumEntries, vFind, findEntry, dictAppend, bump, isInfOrUnb]

example :
    w_project [(Status.optimal, [(0, 4)])] [(0, 0), (1, 0)] = .error PErr.mismatch := by
  simp [w_project, accumAll, accumEntries, vFind, findEntry, dictAppend, bump,
    listSetEq, vKeys, isInfOrUnb]

lemma findEntry_key {l : List (Nat × ℚ)} {q : Nat} {p : Nat × ℚ}
    (h : findEntry l q = some p) : p.1 = q := by
  induction l with
  | nil => simp [findEntry] at h
  | cons a rest ih =>
      by_cases ha : a.1 = q
      · simp [findEntry, ha] at h
        rw [← h]
        exact ha
      · simp [findEntry, ha] at h
        exact ih h

lemma findEntry_isSome_iff {l : List (Nat × ℚ)} {q : Nat} :
    (findEntry l q).isSome ↔ q ∈ l.map Prod.fst := by
  induction l with
  | nil => simp [findEntry]
  | cons a rest ih =>
      by_cases ha : a.1 = q
      · simp [findEntry, ha]
      · simp [findEntry, ha, ih, Ne.symm ha]

lemma vFind_map_fst (l : VMap) (f : Nat × ℚ → ℚ) (q : Nat) :
    vFind (l.map fun p => (p.1, f p)) q = (findEntry l q).map f := by
  induction l with
  | nil => simp [vFind, findEntry]
  | cons a rest ih =>
      by_cases ha : a.1 = q
      · simp [vFind, findEntry, ha]
      · simpa [vFind, findEntry, ha] using ih

lemma dictGetList_append (d : List (Nat × List ℚ)) (key : Nat) (v : ℚ) (q : Nat) :
    dictGetList (dictAppend d key v) q =
      if key = q then dictGetList d q ++ [v] else dictGetList d q := by
  induction d with
  | nil =>
      by_cases h : key = q <;> simp [dictAppend, dictGetList, h]
  | cons a rest ih =>
      obtain ⟨k, vs⟩ := a
      by_cases hk : k = key
      · subst hk
        by_cases hq : k = q <;> simp [dictAppend, dictGetList, hq]
      · by_cases hq : k = q
        · subst hq
          have : ¬ key = k := fun h => hk h.symm
          simp [dictAppend, dictGetList, hk, this]
        · simp [dictAppend, dictGetList, hk, hq, ih]

lemma dictAppend_fst_mem (d : List (Nat × List ℚ)) (key : Nat) (v : ℚ) (q : Nat) :
    q ∈ (dictAppend d key v).map Prod.fst ↔ q ∈ d.map Prod.fst ∨ q = key := by
  induction d with
  | nil => simp [dictAppend]
  | cons a rest ih =>
      obtain ⟨k, vs⟩ := a
      by_cases hk : k = key
      · subst hk
        by_cases hq : q = k <;> simp [dictAppend, hq]
      · simp [dictAppend, hk, ih]
        tauto

lemma accumEntries_ok_spec (s_half : VMap) (entries : VMap) (acc acc2 : WAcc)
    (h : accumEntries s_half entries acc = .ok acc2) (q : Nat) :
    dictGetList acc2.1 q = dictGetList acc.1 q ++ entryDiffs s_half entries q ∧
    acc2.2 q = acc.2 q + (entryDiffs s_half entries q).length ∧
    (q ∈ acc2.1.map Prod.fst ↔ q ∈ acc.1.map Prod.fst ∨ q ∈ vKeys entries) := by
  induction entries generalizing acc with
  | nil =>
      simp [accumEntries] at h
      subst h
      simp [entryDiffs, vKeys]
  | cons a rest ih =>
      obtain ⟨key, v⟩ := a
      rcases hs : vFind s_half key with _ | sv
      · simp [accumEntries, hs] at h
      · simp only [accumEntries, hs] at h
        obtain ⟨h1, h2, h3⟩ := ih _ h
        by_cases hq : key = q
        · subst hq
          refine ⟨?_, ?_, ?_⟩
          · rw [h1, dictGetList_append]
            simp [entryDiffs, hs]
          · rw [h2]
            simp [bump, entryDiffs, hs]
            all_goals push_cast
            all_goals ring
          · rw [h3, dictAppend_fst_mem]
            simp [vKeys]
            all_goals tauto
        · have hqk : ¬ q = key := fun hh => hq hh.symm
          refine ⟨?_, ?_, ?_⟩
          · rw [h1, dictGetList_append]
            simp [entryDiffs, hq]
          · rw [h2]
            simp [bump, entryDiffs, hq, hqk]
          · rw [h3, dictAppend_fst_mem]
            simp [vKeys, hqk]
            all_goals tauto

lemma accumAll_ok_spec (s_half : VMap) (prox_res : List (Status × VMap))
    (acc acc2 : WAcc) (h : accumAll s_half prox_res acc = .ok acc2) (q : Nat) :
    dictGetList acc2.1 q = dictGetList acc.1 q ++ allDiffs s_half prox_res q ∧
    acc2.2 q = acc.2 q + (allDiffs s_half prox_res q).length ∧
    (q ∈ acc2.1.map Prod.fst ↔
      q ∈ acc.1.map Prod.fst ∨ ∃ p ∈ prox_res, q ∈ vKeys p.2) := by
  induction prox_res generalizing acc with
  | nil =>
      simp [accumAll] at h
      subst h
      simp [allDiffs]
  | cons a rest ih =>
      obtain ⟨stat, y_half⟩ := a
      by_cases hst : isInfOrUnb stat
      · simp [accumAll, hst] at h
      · simp only [accumAll, hst, if_false, Bool.false_eq_true] at h
        rcases hmid : accumEntries s_half y_half acc with e | accMid
        · rw [hmid] at h
          simp at h
        · rw [hmid] at h
          simp only at h
          obtain ⟨g1, g2, g3⟩ := accumEntries_ok_spec s_half y_half acc accMid hmid q
          obtain ⟨h1, h2, h3⟩ := ih _ h
          refine ⟨?_, ?_, ?_⟩
          · rw [h1, g1, allDiffs]
            simp [allDiffs]
          · rw [h2, g2]
            simp [allDiffs]
            all_goals push_cast
            all_goals ring
          · rw [h3, g3]
            simp
            all_goals tauto

lemma vFind_eq_none_iff {m : VMap} {q : Nat} : vFind m q = none ↔ q ∉ vKeys m := by
  have := @findEntry_isSome_iff m q
  unfold vFind vKeys
  rcases h : findEntry m q with _ | p <;> simp [h] at this ⊢ <;> simp [this]

lemma entryDiffs_nil_of_not_mem {s_half entries : VMap} {q : Nat}
    (h : q ∉ vKeys entries) : entryDiffs s_half entries q = [] := by
  unfold entryDiffs
  rw [List.filterMap_eq_nil_iff]
  intro p hp
  have hpq : ¬ p.1 = q := by
    intro hh
    have hm : p.1 ∈ vKeys entries := List.mem_map_of_mem Prod.fst hp
    rw [hh] at hm
    exact h hm
  simp [hpq]

lemma entryDiffs_eq {s_half entries : VMap} {q : Nat} {sv : ℚ}
    (hnd : (vKeys entries).Nodup) (hs : vFind s_half q = some sv) :
    entryDiffs s_half entries q = ((vFind entries q).map (fun v => v - sv)).toList := by
  induction entries with
  | nil => simp [entryDiffs, vFind, findEntry]
  | cons a rest ih =>
      obtain ⟨k, v⟩ := a
      simp only [vKeys, List.map_cons, List.nodup_cons] at hnd
      by_cases hk : k = q
      · subst hk
        have hrest : entryDiffs s_half rest k = [] :=
          entryDiffs_nil_of_not_mem (by simpa [vKeys] using hnd.1)
        have hv : vFind ((k, v) :: rest) k = some v := by
          simp [vFind, findEntry]
        have hstep : entryDiffs s_half ((k, v) :: rest) k =
            (v - sv) :: entryDiffs s_half rest k := by
          simp [entryDiffs, List.filterMap_cons, hs]
        rw [hstep, hrest, hv]
        simp
      · have hv : vFind ((k, v) :: rest) q = vFind rest q := by
          simp [vFind, findEntry, hk]
        have hstep : entryDiffs s_half ((k, v) :: rest) q = entryDiffs s_half rest q := by
          simp only [entryDiffs, List.filterMap_cons]
          rw [if_neg hk]
        rw [hstep, hv]
        exact ih hnd.2

lemma allDiffs_eq_diffsList {s_half : VMap} {prox_res : List (Status × VMap)} {q : Nat}
    {sv : ℚ} (hnd : ∀ p ∈ prox_res, (vKeys p.2).Nodup) (hs : vFind s_half q = some sv) :
    allDiffs s_half prox_res q = diffsList prox_res s_half q := by
  induction prox_res with
  | nil => simp [allDiffs, diffsList]
  | cons a rest ih =>
      have hh := entryDiffs_eq (hnd a (by simp)) hs
      have ht := ih (fun p hp => hnd p (by simp [hp]))
      simp only [allDiffs, List.map_cons, List.flatten_cons] at ht ⊢
      rw [hh, ht]
      simp only [diffsList, List.filterMap_cons, hs]
      rcases hv : vFind a.2 q with _ | v
      · simp [hv, hs]
      · simp [hv, hs]

lemma diffsList_length {prox_res : List (Status × VMap)} {s_half : VMap} {q : Nat} :
    (diffsList prox_res s_half q).length = countHolders prox_res q := by
  induction prox_res with
  | nil => simp [diffsList, countHolders]
  | cons a rest ih =>
      rcases hv : vFind a.2 q with _ | v
      · have hq : q ∉ vKeys a.2 := vFind_eq_none_iff.mp hv
        have hc : ((vKeys a.2).contains q) = false := by
          simpa using hq
        simp [diffsList, List.filterMap_cons, hv, countHolders, List.filter_cons, hc, hq] at ih ⊢
        exact ih
      · have hq : q ∈ vKeys a.2 := by
          by_contra hq
          rw [vFind_eq_none_iff.mpr hq] at hv
          exact Option.noConfusion hv
        have hc : ((vKeys a.2).contains q) = true := by
          simpa using hq
        simp [diffsList, List.filterMap_cons, hv, countHolders, List.filter_cons, hc, hq,
          List.length_cons] at ih ⊢
        rw [ih]

/-- C1 (claim): on a successful projection round, for every tracked key the
closed-form holds: `mat_term[key]` is the sum of the per-worker differences
`y_half_i[key] - s_half[key]` divided by `1 + n`, and
`z_new[key] = s_half[key] + sum_diffs - n * mat_term[key]`, where `n` is
the number of workers whose report holds the key
(`consensus.py:87-95`). -/
theorem w_project_projection_formula
    (prox_res : List (Status × VMap)) (s_half mt zn : VMap) (key : Nat)
    (hok : w_project prox_res s_half = .ok (mt, zn))
    (hnd : ∀ p ∈ prox_res, (vKeys p.2).Nodup)
    (hkey : key ∈ vKeys s_half) :
    vFind mt key =
      some ((diffsList prox_res s_half key).sum
            / (1 + (countHolders prox_res key : ℚ))) ∧
    vFind zn key =
      some ((vFind s_half key).getD 0 + (diffsList prox_res s_half key).sum
            - (countHolders prox_res key : ℚ)
              * ((diffsList prox_res s_half key).sum
                 / (1 + (countHolders prox_res key : ℚ)))) := by
  unfold w_project at hok
  rcases hacc : accumAll s_half prox_res ([], fun _ => 0) with e | acc2
  · rw [hacc] at hok
    exact Except.noConfusion hok
  · rw [hacc] at hok
    obtain ⟨ysDiff, varCnt⟩ := acc2
    by_cases hset : listSetEq (vKeys s_half) (ysDiff.map Prod.fst)
    · simp only [hset, if_true] at hok
      obtain ⟨hmt, hzn⟩ : (s_half.map fun p =>
            (p.1, (dictGetList ysDiff p.1).sum / (1 + varCnt p.1))) = mt ∧
          (s_half.map fun p =>
            (p.1, p.2 + (dictGetList ysDiff p.1).sum
                  - varCnt p.1 * ((dictGetList ysDiff p.1).sum / (1 + varCnt p.1)))) = zn := by
        injection hok with hok1
        injection hok1 with ha hb
        exact ⟨ha, hb⟩
      obtain ⟨hget, hcnt, _⟩ :=
        accumAll_ok_spec s_half prox_res ([], fun _ => 0) (ysDiff, varCnt) hacc key
      have hget2 : dictGetList ysDiff key = allDiffs s_half prox_res key := by
        simpa [dictGetList] using hget
      have hfe : (findEntry s_half key).isSome := findEntry_isSome_iff.mpr hkey
      rcases hfee : findEntry s_half key with _ | p
      · rw [hfee] at hfe
        simp at hfe
      · have hp1 : p.1 = key := findEntry_key hfee
        have hsv : vFind s_half key = some p.2 := by simp [vFind, hfee]
        have hdl : allDiffs s_half prox_res key = diffsList prox_res s_half key :=
          allDiffs_eq_diffsList hnd hsv
        have hcnt2 : varCnt key = (countHolders prox_res key : ℚ) := by
          have h0 : varCnt key = ((allDiffs s_half prox_res key).length : ℚ) := by
            simpa using hcnt
          rw [h0, hdl]
          norm_cast
          exact diffsList_length
        constructor
        · rw [← hmt, vFind_map_fst, hfee]
          simp [hp1, hget2, hdl, hcnt2]
        · rw [← hzn, vFind_map_fst, hfee]
          simp [hp1, hget2, hdl, hcnt2, hsv]
    · simp only [hset, if_false] at hok
      exact Except.noConfusion hok

/-- Witness for `w_project_projection_formula`: two workers, worker 0
holding key 0 and worker 1 holding keys 0 and 1, both half-steps nonzero. -/
theorem w_project_projection_formula_witness :
    vFind [(0, (2:ℚ)/3), (1, 5/2)] 0 =
      some ((diffsList [(Status.optimal, [(0, 1)]), (Status.optimal, [(0, 1), (1, 5)])]
              [(0, 0), (1, 0)] 0).sum
            / (1 + (countHolders
                [(Status.optimal, [(0, 1)]), (Status.optimal, [(0, 1), (1, 5)])] 0 : ℚ))) ∧
    vFind [(0, (2:ℚ)/3), (1, 5/2)] 0 =
      some ((vFind [(0, 0), (1, 0)] 0).getD 0 +
            (diffsList [(Status.optimal, [(0, 1)]), (Status.optimal, [(0, 1), (1, 5)])]
              [(0, 0), (1, 0)] 0).sum
            - (countHolders
                [(Status.optimal, [(0, 1)]), (Status.optimal, [(0, 1), (1, 5)])] 0 : ℚ)
              * ((diffsList [(Status.optimal, [(0, 1)]), (Status.optimal, [(0, 1), (1, 5)])]
                   [(0, 0), (1, 0)] 0).sum
                 / (1 + (countHolders
                     [(Status.optimal, [(0, 1)]), (Status.optimal, [(0, 1), (1, 5)])]
                     0 : ℚ)))) :=
  w_project_projection_formula
    [(Status.optimal, [(0, 1)]), (Status.optimal, [(0, 1), (1, 5)])]
    [(0, 0), (1, 0)] [(0, 2/3), (1, 5/2)] [(0, 2/3), (1, 5/2)] 0
    (by
      simp [w_project, accumAll, accumEntries, vFind, findEntry, dictAppend, dictGetList,
        bump, listSetEq, vKeys, isInfOrUnb]
      norm_num)
    (by decide)
    (by decide)

lemma mem_unionKeys {prox_res : List (Status × VMap)} {q : Nat} :
    q ∈ unionKeys prox_res ↔ ∃ p ∈ prox_res, q ∈ vKeys p.2 := by
  unfold unionKeys
  rw [List.mem_flatten]
  constructor
  · rintro ⟨l, hl, hq⟩
    rw [List.mem_map] at hl
    obtain ⟨p, hp, rfl⟩ := hl
    exact ⟨p, hp, hq⟩
  · rintro ⟨p, hp, hq⟩
    exact ⟨vKeys p.2, List.mem_map_of_mem _ hp, hq⟩

lemma listSetEq_iff {a b : List Nat} :
    listSetEq a b = true ↔ ∀ q : Nat, q ∈ a ↔ q ∈ b := by
  simp only [listSetEq, Bool.and_eq_true, List.all_eq_true]
  constructor
  · intro ⟨h1, h2⟩ q
    constructor
    · intro hq
      have := h1 q hq
      simpa using this
    · intro hq
      have := h2 q hq
      simpa using this
  · intro h
    constructor
    · intro q hq
      simpa using (h q).mp hq
    · intro q hq
      simpa using (h q).mpr hq

/-- C5 (amended): whenever the union of the workers' reported key sets
differs from the coordinator's tracked key set, `w_project` raises an
error (the `KeyError` at `consensus.py:81` for an extra reported key, or
the `RuntimeError` at `consensus.py:85` for a tracked key nobody reports)
and produces no projection output. -/
theorem w_project_union_mismatch_errors
    (prox_res : List (Status × VMap)) (s_half : VMap)
    (h : ¬ ∀ q : Nat, q ∈ unionKeys prox_res ↔ q ∈ vKeys s_half) :
    ∃ e, w_project prox_res s_half = .error e := by
  unfold w_project
  rcases hacc : accumAll s_half prox_res ([], fun _ => 0) with e | acc2
  · exact ⟨e, rfl⟩
  · obtain ⟨ysDiff, varCnt⟩ := acc2
    have hmem := fun q =>
      (accumAll_ok_spec s_half prox_res ([], fun _ => 0) (ysDiff, varCnt) hacc q).2.2
    by_cases hset : listSetEq (vKeys s_half) (ysDiff.map Prod.fst)
    · exfalso
      apply h
      intro q
      have h1 := (listSetEq_iff.mp hset) q
      have h2 := hmem q
      simp only [List.map, List.not_mem_nil] at h2
      rw [mem_unionKeys]
      constructor
      · intro hq
        exact h1.mpr (h2.mpr (Or.inr hq))
      · intro hq
        rcases h2.mp (h1.mp hq) with hfalse | hex
        · simp at hfalse
        · exact hex
    · refine ⟨PErr.mismatch, ?_⟩
      simp only [hset, if_false]
      simp

/-- Witness for `w_project_union_mismatch_errors`: one worker reporting
key 1 while the coordinator tracks only key 0. -/
theorem w_project_union_mismatch_errors_witness :
    ∃ e, w_project [(Status.optimal, [(1, (4:ℚ))])] [(0, 0)] = .error e :=
  w_project_union_mismatch_errors [(Status.optimal, [(1, 4)])] [(0, 0)]
    (by
      intro hall
      have := (hall 1).mp (by simp [unionKeys, vKeys])
      simp [vKeys] at this)

/-- C5 (counterexample to the per-worker reading): worker 0 reports only
key 0 while the coordinator tracks keys 0 and 1 — worker 0's reported key
set differs from the tracked set — yet `w_project` succeeds (worker 1
covers key 1), so no configuration error is raised. -/
theorem w_project_per_worker_mismatch_accepted :
    w_project [(Status.optimal, [(0, 1)]), (Status.optimal, [(0, 1), (1, 5)])]
        [(0, 0), (1, 0)] =
      .ok ([(0, 2/3), (1, 5/2)], [(0, 2/3), (1, 5/2)]) ∧
    listSetEq (vKeys [(0, (1:ℚ))]) (vKeys [(0, (0:ℚ)), (1, 0)]) = false := by
  constructor
  · simp [w_project, accumAll, accumEntries, vFind, findEntry, dictAppend, dictGetList,
      bump, listSetEq, vKeys, isInfOrUnb]
    norm_num
  · decide

/-- C7 (claim): any weight vector `dual_weights` can return has length
equal to the window length and entries summing to 1, and for a window of
size 1 the returned weights are exactly `[1.0]`. -/
theorem dual_weights_spec (d : Nat) (cols : List (Nat → ℚ)) (w : List ℚ)
    (h : dual_weights_opt d cols w) :
    w.length = cols.length ∧ w.sum = 1 ∧ (cols.length = 1 → w = [1]) := by
  obtain ⟨hlen, ⟨hsum, _⟩, _⟩ := h
  refine ⟨hlen, hsum, ?_⟩
  intro h1
  rw [h1] at hlen
  match w, hlen with
  | [a], _ =>
      simp at hsum
      rw [hsum]

/-- Witness for `dual_weights_spec`: window of one residual column of
dimension 1 with value 2; the only feasible weight vector is `[1]`. -/
theorem dual_weights_spec_witness :
    [(1:ℚ)].length = [dwWitnessCol].length ∧ [(1:ℚ)].sum = 1 ∧
      ([dwWitnessCol].length = 1 → [(1:ℚ)] = [1]) :=
  dual_weights_spec 1 [dwWitnessCol] [1]
    ⟨by simp, ⟨by simp, by simp⟩, by
      intro w2 hlen hfeas
      match w2, hlen with
      | [a], _ =>
          have : a = 1 := by simpa using hfeas.1
          rw [this]⟩

lemma windowIter_content (m : Nat) (d : Nat → α) (k : Nat) :
    windowIter m d k = (((List.range (k + 1)).map d).drop (k - min m k)) := by
  induction k with
  | zero =>
      simp [windowIter, hist_push]
      rw [List.range_succ]
      simp
  | succ k ih =>
      have hlen : (windowIter m d k).length = min m k + 1 := by
        rw [ih]
        simp
        omega
      rw [windowIter, hist_push]
      simp only [List.length_append, List.length_cons, List.length_nil, hlen]
      have hcons : windowIter m d k ++ [d (k + 1)] =
          ((List.range (k + 2)).map d).drop (k - min m k) := by
        have h2 : (List.range (k + 2)).map d = (List.range (k + 1)).map d ++ [d (k + 1)] := by
          rw [List.range_succ, List.map_append]
          simp
        rw [h2, List.drop_append_of_le_length (by simp; omega), ← ih]
      by_cases hm : k < m
      · have h1 : min m k = k := by omega
        have h2 : min m (k + 1) = k + 1 := by omega
        rw [if_neg (by omega)]
        rw [hcons, h1, h2]
        simp
      · have h1 : min m k = m := by omega
        have h2 : min m (k + 1) = m := by omega
        rw [if_pos (by omega)]
        rw [hcons, List.drop_drop, h1, h2]
        congr 1
        omega

lemma windowIter_length (m : Nat) (d : Nat → α) (k : Nat) :
    (windowIter m d k).length = min m k + 1 := by
  rw [windowIter_content]
  simp
  omega

lemma residWrite_oob {resid : List ℚ} {k : Nat}
    (h : ¬ k < resid.length) (v : ℚ) : residWrite resid k v = .error RunErr.idx := by
  simp [residWrite, h]

lemma residWrite_ok {resid : List ℚ} {k : Nat}
    (h : k < resid.length) (v : ℚ) : residWrite resid k v = .ok (resid.set k v) := by
  simp [residWrite, h]

lemma accelStep_oob (env : Env) (st : St) (zNew : VMap)
    (h : ¬ st.k < st.resid.length) : accelStep env st zNew = .error RunErr.idx := by
  unfold accelStep
  simp only [residWrite_oob h, Except.bind]

lemma nonAccelStep_oob (env : Env) (st : St) (zNew : VMap)
    (h : ¬ st.k < st.resid.length) : nonAccelStep env st zNew = .error RunErr.idx := by
  unfold nonAccelStep
  simp only [residWrite_oob h, Except.bind]

lemma loopGo_fin (env : Env) (fuel : Nat) (st : St) (h : st.finished = true) :
    loopGo env fuel st = .ok st := by
  unfold loopGo
  rw [h]
  simp

lemma loopGo_unfin (env : Env) (fuel : Nat) (st : St) (h : st.finished = false) :
    loopGo env (fuel + 1) st =
      match roundBody env st with
      | .error e => .error e
      | .ok st2 => loopGo env fuel st2 := by
  conv =>
    lhs
    rw [loopGo]
  rw [h]
  simp

lemma loopGo_err (env : Env) (fuel : Nat) (st : St) (e : RunErr)
    (h : st.finished = false) (hb : roundBody env st = .error e) :
    loopGo env (fuel + 1) st = .error e := by
  rw [loopGo_unfin env fuel st h, hb]

lemma loopGo_step (env : Env) (fuel : Nat) (st st2 : St)
    (h : st.finished = false) (hb : roundBody env st = .ok st2) :
    loopGo env (fuel + 1) st = loopGo env fuel st2 := by
  rw [loopGo_unfin env fuel st h, hb]

lemma initSt_z_keys (env : Env) : vKeys (initSt env).z = env.varKeys := by
  simp only [initSt, vKeys, List.map_map]
  show List.map (fun key => key) env.varKeys = env.varKeys
  simp

lemma vKeys_map_fst (l : VMap) (f : Nat × ℚ → ℚ) :
    vKeys (l.map fun p => (p.1, f p)) = vKeys l := by
  simp [vKeys]

lemma accumEntries_ok_of (s_half : VMap) (entries : VMap)
    (hcov : ∀ q ∈ vKeys entries, q ∈ vKeys s_half) (acc : WAcc) :
    ∃ acc2, accumEntries s_half entries acc = .ok acc2 := by
  induction entries generalizing acc with
  | nil => exact ⟨acc, rfl⟩
  | cons a rest ih =>
      obtain ⟨key, v⟩ := a
      have hk : key ∈ vKeys s_half := hcov key (by simp [vKeys])
      have hs : (findEntry s_half key).isSome := findEntry_isSome_iff.mpr hk
      rcases hfe : findEntry s_half key with _ | p
      · rw [hfe] at hs
        simp at hs
      · have hv : vFind s_half key = some p.2 := by simp [vFind, hfe]
        have hrest : ∀ q ∈ vKeys rest, q ∈ vKeys s_half := by
          intro q hq
          refine hcov q ?_
          simp [vKeys] at hq ⊢
          exact Or.inr hq
        rcases ih hrest (dictAppend acc.1 key (v - p.2), bump acc.2 key) with ⟨acc2, hacc2⟩
        exact ⟨acc2, by simp [accumEntries, hv, hacc2]⟩

lemma accumAll_ok_of (s_half : VMap) (prox_res : List (Status × VMap))
    (hst : StatusesOk prox_res)
    (hcov : ∀ q ∈ unionKeys prox_res, q ∈ vKeys s_half) (acc : WAcc) :
    ∃ acc2, accumAll s_half prox_res acc = .ok acc2 := by
  induction prox_res generalizing acc with
  | nil => exact ⟨acc, rfl⟩
  | cons a rest ih =>
      obtain ⟨stat, y_half⟩ := a
      have hstat : isInfOrUnb stat = false := hst (stat, y_half) (by simp)
      have hcov1 : ∀ q ∈ vKeys y_half, q ∈ vKeys s_half := by
        intro q hq
        exact hcov q (mem_unionKeys.mpr ⟨(stat, y_half), by simp, hq⟩)
      rcases accumEntries_ok_of s_half y_half hcov1 acc with ⟨accMid, hmid⟩
      have hst2 : StatusesOk rest := fun p hp => hst p (by simp [hp])
      have hcov2 : ∀ q ∈ unionKeys rest, q ∈ vKeys s_half := by
        intro q hq
        rcases mem_unionKeys.mp hq with ⟨p, hp, hq2⟩
        exact hcov q (mem_unionKeys.mpr ⟨p, by simp [hp], hq2⟩)
      rcases ih hst2 hcov2 accMid with ⟨acc2, hacc2⟩
      exact ⟨acc2, by simp [accumAll, hstat, hmid, hacc2]⟩

lemma w_project_ok_of (prox_res : List (Status × VMap)) (s_half : VMap)
    (hst : StatusesOk prox_res) (hkm : KeysMatch prox_res (vKeys s_half)) :
    ∃ mt zn, w_project prox_res s_half = .ok (mt, zn) ∧
      vKeys mt = vKeys s_half ∧ vKeys zn = vKeys s_half := by
  obtain ⟨⟨ysDiff, varCnt⟩, hacc⟩ :=
    accumAll_ok_of s_half prox_res hst (fun q hq => (hkm q).mp hq) ([], fun _ => 0)
  have hmem := fun q =>
    (accumAll_ok_spec s_half prox_res ([], fun _ => 0) (ysDiff, varCnt) hacc q).2.2
  have hset : listSetEq (vKeys s_half) (ysDiff.map Prod.fst) = true := by
    rw [listSetEq_iff]
    intro q
    constructor
    · intro hq
      exact (hmem q).mpr (Or.inr (mem_unionKeys.mp ((hkm q).mpr hq)))
    · intro hq
      rcases (hmem q).mp hq with h0 | hex
      · simp at h0
      · exact (hkm q).mp (mem_unionKeys.mpr hex)
  refine ⟨s_half.map fun p => (p.1, (dictGetList ysDiff p.1).sum / (1 + varCnt p.1)),
    s_half.map fun p =>
      (p.1, p.2 + (dictGetList ysDiff p.1).sum
        - varCnt p.1 * ((dictGetList ysDiff p.1).sum / (1 + varCnt p.1))),
    ?_, vKeys_map_fst _ _, vKeys_map_fst _ _⟩
  unfold w_project
  rw [hacc]
  simp only [hset, if_true]

/-- C9 (claim): a call with `m_accel = -1` and `anderson = True` raises
the `ValueError` of `consensus.py:177-178` before the worker setup loop
at `consensus.py:191-196` runs, so no worker is created or launched. -/
theorem consensus_neg_m_accel (env : Env)
    (hm : env.mAccel = -1) (ha : env.anderson = true) :
    consensus env = ⟨.error RunErr.valueError, false, false⟩ := by
  unfold consensus
  rw [hm]
  norm_num

/-- Witness for `consensus_neg_m_accel`. -/
theorem consensus_neg_m_accel_witness :
    consensus { zeroEnv with mAccel := -1, anderson := true } =
      ⟨.error RunErr.valueError, false, false⟩ :=
  consensus_neg_m_accel { zeroEnv with mAccel := -1, anderson := true } rfl rfl

/-- C10 (claim): with `max_iter = 0` (and an otherwise clean first round)
the loop body still runs once, `resid = np.zeros(0)` has no slot 0, and
the `resid[k]` write raises `IndexError` after the workers were started;
the entry point does not return normally. -/
theorem consensus_max_iter_zero (env : Env)
    (h0 : env.maxIter = 0) (hm : 0 ≤ env.mAccel)
    (hst : StatusesOk (env.msgs 0)) (hkm : KeysMatch (env.msgs 0) env.varKeys) :
    consensus env = ⟨.error RunErr.idx, true, false⟩ := by
  have hkm2 : KeysMatch (env.msgs 0) (vKeys (initSt env).z) := by
    rw [initSt_z_keys]
    exact hkm
  obtain ⟨mt, zn, hok, _, _⟩ := w_project_ok_of (env.msgs 0) (initSt env).z hst hkm2
  have hlen : ¬ (initSt env).k < (initSt env).resid.length := by
    simp [initSt, h0]
  have hbody : roundBody env (initSt env) = .error RunErr.idx := by
    unfold roundBody
    have hk : (initSt env).k = 0 := rfl
    rw [hk, hok]
    by_cases ha : env.anderson
    · rw [ha]
      simp only [if_true]
      exact accelStep_oob env (initSt env) zn hlen
    · simp only [ha, Bool.false_eq_true, if_false]
      exact nonAccelStep_oob env (initSt env) zn hlen
  have hfin : (initSt env).finished = false := rfl
  have hloop : loopGo env (env.maxIter + 1) (initSt env) = .error RunErr.idx :=
    loopGo_err env env.maxIter (initSt env) RunErr.idx hfin hbody
  unfold consensus
  rw [if_neg (by omega), hloop]

/-- Witness for `consensus_max_iter_zero`: the baseline environment with
`max_iter = 0`. -/
theorem consensus_max_iter_zero_witness :
    consensus { zeroEnv with maxIter := 0 } = ⟨.error RunErr.idx, true, false⟩ :=
  consensus_max_iter_zero { zeroEnv with maxIter := 0 } rfl (by decide)
    (by
      intro p hp
      simp [zeroEnv] at hp
      rw [hp]
      rfl)
    (by
      intro q
      simp [zeroEnv, unionKeys, vKeys])

lemma accumAll_error_of_bad (s_half : VMap) (prox_res : List (Status × VMap))
    (hbad : ∃ p ∈ prox_res, isInfOrUnb p.1 = true) (acc : WAcc) :
    ∃ e, accumAll s_half prox_res acc = .error e := by
  induction prox_res generalizing acc with
  | nil => simp at hbad
  | cons a rest ih =>
      obtain ⟨stat, y_half⟩ := a
      by_cases hst : isInfOrUnb stat
      · exact ⟨PErr.infOrUnb, by simp [accumAll, hst]⟩
      · have hbad2 : ∃ p ∈ rest, isInfOrUnb p.1 = true := by
          rcases hbad with ⟨p, hp, hb⟩
          rcases List.mem_cons.mp hp with rfl | hmem
          · exact absurd hb (by simpa using hst)
          · exact ⟨p, hmem, hb⟩
        rcases hmid : accumEntries s_half y_half acc with e | acc2
        · exact ⟨e, by simp [accumAll, hst, hmid]⟩
        · rcases ih hbad2 acc2 with ⟨e, he⟩
          exact ⟨e, by simp [accumAll, hst, hmid, he]⟩

lemma w_project_error_of_bad (prox_res : List (Status × VMap)) (s_half : VMap)
    (hbad : ∃ p ∈ prox_res, isInfOrUnb p.1 = true) :
    ∃ e, w_project prox_res s_half = .error e := by
  obtain ⟨e, he⟩ := accumAll_error_of_bad s_half prox_res hbad ([], fun _ => 0)
  exact ⟨e, by simp [w_project, he]⟩

/-- C6 (amended): an infeasible/unbounded worker status in round 0 makes
the run abort — the error propagates synchronously to the caller of the
entry point — but the worker processes are NOT terminated before the
error is re-raised: `p.terminate()` (`consensus.py:283`) only runs on the
normal return path, and the `RuntimeError` from `w_project` skips it. -/
theorem consensus_infeasible_abort (env : Env) (hm : 0 ≤ env.mAccel)
    (hbad : ∃ p ∈ env.msgs 0, isInfOrUnb p.1 = true) :
    (∃ e, (consensus env).result = .error e) ∧
    (consensus env).workersStarted = true ∧
    (consensus env).workersTerminated = false := by
  obtain ⟨e, he⟩ := w_project_error_of_bad (env.msgs 0) (initSt env).z hbad
  have hbody : roundBody env (initSt env) = .error (RunErr.proj e) := by
    unfold roundBody
    have hk : (initSt env).k = 0 := rfl
    rw [hk, he]
  have hloop : loopGo env (env.maxIter + 1) (initSt env) = .error (RunErr.proj e) :=
    loopGo_err env env.maxIter (initSt env) (RunErr.proj e) rfl hbody
  unfold consensus
  rw [if_neg (by omega), hloop]
  exact ⟨⟨RunErr.proj e, rfl⟩, rfl, rfl⟩

/-- Witness for `consensus_infeasible_abort`: one worker reporting
`infeasible` in round 0. -/
theorem consensus_infeasible_abort_witness :
    (∃ e, (consensus { zeroEnv with
        msgs := fun _ => [(Status.infeasible, [(0, 0)])] }).result = .error e) ∧
    (consensus { zeroEnv with
        msgs := fun _ => [(Status.infeasible, [(0, 0)])] }).workersStarted = true ∧
    (consensus { zeroEnv with
        msgs := fun _ => [(Status.infeasible, [(0, 0)])] }).workersTerminated = false :=
  consensus_infeasible_abort _ (by decide)
    ⟨(Status.infeasible, [(0, 0)]), by simp, rfl⟩

/-- C6 (counterexample to the claim as stated): on the concrete
infeasible run the entry point propagates the fatal error, yet the
outcome records the workers as never terminated, contradicting "all
worker processes have been terminated before that error is re-raised". -/
theorem consensus_infeasible_abort_counterexample :
    consensus { zeroEnv with msgs := fun _ => [(Status.infeasible, [(0, 0)])] } =
      ⟨.error (RunErr.proj PErr.infOrUnb), true, false⟩ := by
  have hbody : roundBody { zeroEnv with msgs := fun _ => [(Status.infeasible, [(0, 0)])] }
      (initSt { zeroEnv with msgs := fun _ => [(Status.infeasible, [(0, 0)])] }) =
      .error (RunErr.proj PErr.infOrUnb) := by
    unfold roundBody
    have hw : w_project [(Status.infeasible, [(0, (0:ℚ))])]
        (initSt { zeroEnv with
          msgs := fun _ => [(Status.infeasible, [(0, 0)])] }).z = .error PErr.infOrUnb := by
      simp [w_project, accumAll, isInfOrUnb]
    rw [show (initSt { zeroEnv with
      msgs := fun _ => [(Status.infeasible, [(0, 0)])] }).k = 0 from rfl]
    rw [show ({ zeroEnv with
      msgs := fun _ => [(Status.infeasible, [(0, 0)])] } : Env).msgs 0 =
      [(Status.infeasible, [(0, (0:ℚ))])] from rfl]
    rw [hw]
  unfold consensus
  rw [if_neg (by decide)]
  rw [show ({ zeroEnv with
    msgs := fun _ => [(Status.infeasible, [(0, 0)])] } : Env).maxIter + 1 = 1 + 1 from rfl]
  rw [loopGo_err _ _ _ _ rfl hbody]

/-- C4 (code-bug evidence): at round 0 with `m_accel = 0`, window-1
weights `alpha = [1.0]` (the value the spec pins for a size-1 window),
`x_half = 1`, `y = 0`, `mat_term = z_new = 0`, the accelerated branch
(`consensus.py:145-150`) produces `y = x_half - x_new = 1` while the
non-accelerated branch (`consensus.py:159-160`) produces
`y + x_new - x_half = -1`: the two updates differ on identical inputs. -/
theorem worker_m0_accel_divergence :
    ((worker_accel_step [0] 0 0 c4St cwOne cwZero cwZero [1]).map fun r => r.1.y 0) =
      .ok 1 ∧
    (worker_plain_step [0] c4St cwOne cwZero cwZero).1.y 0 = -1 ∧
    ((1 : ℚ) ≠ -1) := by
  refine ⟨?_, ?_, by norm_num⟩
  · simp [worker_accel_step, wSum, hist_push, c4St, cwZero, cwOne, findEntry,
      List.mapM, List.mapM.loop, Except.map, Functor.map, Except.bind]
  · simp [worker_plain_step, c4St, cwZero, cwOne]

lemma except_bind_ok_iff {α β : Type} {x : Except RunErr α} {f : α → Except RunErr β}
    {b : β} : x.bind f = .ok b ↔ ∃ a, x = .ok a ∧ f a = .ok b := by
  cases x <;> simp [Except.bind]

lemma residWrite_ok_iff {resid : List ℚ} {k : Nat} {v : ℚ} {r : List ℚ} :
    residWrite resid k v = .ok r ↔ k < resid.length ∧ r = resid.set k v := by
  by_cases h : k < resid.length <;> simp [residWrite, h, eq_comm]

lemma nonAccelStep_ok_fields {env : Env} {st : St} {zNew : VMap} {st2 : St}
    (h : nonAccelStep env st zNew = .ok st2) :
    st.k < st.resid.length ∧ st2.k = st.k + 1 ∧ st2.z = zNew ∧
    (∀ key, st2.s key =
      if env.varKeys.contains key then
        st.s key + ((vFind zNew key).getD 0 - (vFind st.z key).getD 0)
      else st.s key) ∧
    st2.resid.length = st.resid.length ∧
    (∀ j, j ≠ st.k → st2.resid.getD j 0 = st.resid.getD j 0) ∧
    st2.sDiff = st.sDiff ∧
    st2.finished = stopGuard env st2.resid (st.k + 1) := by
  unfold nonAccelStep at h
  simp only [] at h
  rw [except_bind_ok_iff] at h
  obtain ⟨r2, hrw, hok⟩ := h
  obtain ⟨hlen, hr2⟩ := residWrite_ok_iff.mp hrw
  have hst2 := Except.ok.inj hok
  subst hst2
  subst hr2
  refine ⟨hlen, rfl, rfl, fun key => rfl, by simp, ?_, rfl, rfl⟩
  intro j hj
  simp [List.getD_eq_getElem?_getD, List.getElem?_set_ne (fun hh => hj hh.symm)]

lemma accelStep_ok_fields {env : Env} {st : St} {zNew : VMap} {st2 : St}
    (h : accelStep env st zNew = .ok st2) :
    st.k < st.resid.length ∧ st2.k = st.k + 1 ∧ st2.z = zNew ∧
    st2.sDiff = hist_push (min env.mAccel.toNat st.k + 1) st.sDiff
      (fun key => (vFind st.z key).getD 0 - (vFind zNew key).getD 0) ∧
    st2.resid.length = st.resid.length ∧
    (∀ j, j ≠ st.k → st2.resid.getD j 0 = st.resid.getD j 0) ∧
    st2.finished = stopGuard env st2.resid (st.k + 1) := by
  unfold accelStep at h
  simp only [] at h
  rw [except_bind_ok_iff] at h
  obtain ⟨r2, hrw, hok⟩ := h
  unfold accelFinish at hok
  rw [except_bind_ok_iff] at hok
  obtain ⟨sVals, _, hok2⟩ := hok
  obtain ⟨hlen, hr2⟩ := residWrite_ok_iff.mp hrw
  have hst2 := Except.ok.inj hok2
  subst hst2
  subst hr2
  refine ⟨hlen, rfl, rfl, rfl, by simp, ?_, rfl⟩
  intro j hj
  simp [List.getD_eq_getElem?_getD, List.getElem?_set_ne (fun hh => hj hh.symm)]

lemma roundBody_ok_cases {env : Env} {st st2 : St} (h : roundBody env st = .ok st2) :
    ∃ mt zNew, w_project (env.msgs st.k) st.z = .ok (mt, zNew) ∧
      ((env.anderson = true ∧ accelStep env st zNew = .ok st2) ∨
       (env.anderson = false ∧ nonAccelStep env st zNew = .ok st2)) := by
  unfold roundBody at h
  rcases hw : w_project (env.msgs st.k) st.z with e | pq
  · rw [hw] at h
    exact absurd h (by simp)
  · obtain ⟨mt, zNew⟩ := pq
    rw [hw] at h
    by_cases ha : env.anderson
    · exact ⟨mt, zNew, rfl, Or.inl ⟨ha, by simpa [ha] using h⟩⟩
    · have ha2 : env.anderson = false := by simpa using ha
      exact ⟨mt, zNew, rfl, Or.inr ⟨ha2, by simpa [ha2] using h⟩⟩

lemma w_project_ok_keys {prox_res : List (Status × VMap)} {s_half mt zn : VMap}
    (h : w_project prox_res s_half = .ok (mt, zn)) :
    vKeys mt = vKeys s_half ∧ vKeys zn = vKeys s_half := by
  unfold w_project at h
  rcases hacc : accumAll s_half prox_res ([], fun _ => 0) with e | acc2
  · rw [hacc] at h
    exact absurd h (by simp)
  · rw [hacc] at h
    obtain ⟨ysDiff, varCnt⟩ := acc2
    by_cases hset : listSetEq (vKeys s_half) (ysDiff.map Prod.fst)
    · simp only [hset, if_true] at h
      injection h with h3
      injection h3 with h4 h5
      exact ⟨h4 ▸ vKeys_map_fst _ _, h5 ▸ vKeys_map_fst _ _⟩
    · simp only [hset, if_false] at h
      exact absurd h (by simp)

lemma vFind_some_mem {m : VMap} {q : Nat} {v : ℚ} (h : vFind m q = some v) :
    q ∈ vKeys m := by
  have h2 : (findEntry m q).isSome := by
    unfold vFind at h
    rcases hf : findEntry m q with _ | p
    · rw [hf] at h
      simp at h
    · simp [hf]
  exact findEntry_isSome_iff.mp h2

lemma vFind_isSome_of_mem {m : VMap} {q : Nat} (h : q ∈ vKeys m) :
    ∃ v, vFind m q = some v := by
  have := findEntry_isSome_iff.mpr h
  rcases hf : findEntry m q with _ | p
  · rw [hf] at this
    simp at this
  · exact ⟨p.2, by simp [vFind, hf]⟩

lemma vFind_zero_init {keys : List Nat} {key : Nat} (h : key ∈ keys) :
    vFind (keys.map fun k2 => (k2, (0:ℚ))) key = some 0 := by
  induction keys with
  | nil => simp at h
  | cons a rest ih =>
      by_cases ha : a = key
      · subst ha
        simp [vFind, findEntry]
      · rcases List.mem_cons.mp h with rfl | hmem
        · exact absurd rfl ha
        · have := ih hmem
          simp only [List.map_cons, vFind, findEntry] at this ⊢
          rw [if_neg ha]
          exact this

/-- C2 (amended): the projection baseline (`s_half` at `consensus.py:216`)
is the coordinator consensus value `z`; in non-accelerated runs `z` and
the split `s` agree on every tracked key — initially, and preserved by
every successful round, since `s += z_new - z` together with `z = z_new`
keeps `s = z` — so there the baseline is exactly the split state.  (The
companion counterexample shows the accelerated coordinator violates this
equality after one round.) -/
theorem nonaccel_projection_baseline_is_split (env : Env)
    (ha : env.anderson = false) :
    SplitEqZ env (initSt env) ∧
    ∀ st st2 : St, roundBody env st = .ok st2 → SplitEqZ env st → SplitEqZ env st2 := by
  constructor
  · intro key hk
    show vFind ((initSt env).z) key = some ((initSt env).s key)
    simp only [initSt]
    exact vFind_zero_init hk
  · intro st st2 hstep hinv key hk
    obtain ⟨mt, zNew, hw, hbr⟩ := roundBody_ok_cases hstep
    rcases hbr with ⟨ha2, _⟩ | ⟨_, hna⟩
    · rw [ha] at ha2
      exact absurd ha2 (by simp)
    · obtain ⟨_, _, hz2, hs2, _⟩ := nonAccelStep_ok_fields hna
      have hkz : key ∈ vKeys st.z := vFind_some_mem (hinv key hk)
      have hkzn : key ∈ vKeys zNew := by
        rw [(w_project_ok_keys hw).2]
        exact hkz
      obtain ⟨w, hwv⟩ := vFind_isSome_of_mem hkzn
      have hcont : env.varKeys.contains key = true := by simpa using hk
      rw [hz2, hwv, hs2 key]
      simp [hcont, hwv, hinv key hk]
      all_goals simp [hk]

/-- Witness for `nonaccel_projection_baseline_is_split` at the baseline
non-accelerated environment. -/
theorem nonaccel_projection_baseline_is_split_witness :
    SplitEqZ zeroEnv (initSt zeroEnv) ∧
    ∀ st st2 : St, roundBody zeroEnv st = .ok st2 →
      SplitEqZ zeroEnv st → SplitEqZ zeroEnv st2 :=
  nonaccel_projection_baseline_is_split zeroEnv rfl

/-- C2 (counterexample): after round 0 of the accelerated run the
coordinator holds `z[0] = 2` but split `s[0] = -2`, so the round-1
projection baseline (which is `z`, `consensus.py:216`) is NOT the split
state `s`, falsifying the claim for accelerated runs. -/
theorem accel_projection_baseline_not_split :
    ((roundBody c2cEnv (initSt c2cEnv)).map fun st => ((vFind st.z 0).getD 0, st.s 0)) =
      .ok (2, -2) ∧ ((2 : ℚ) ≠ -2) := by
  refine ⟨?_, by norm_num⟩
  simp [roundBody, c2cEnv, zeroEnv, initSt, w_project, accumAll, accumEntries, vFind,
    findEntry, dictAppend, dictGetList, bump, listSetEq, vKeys, isInfOrUnb, accelStep,
    accelFinish, residWrite, hist_push, wSum, stopGuard, List.mapM, List.mapM.loop,
    Except.map, Functor.map, Except.bind, c2cDiff]
  norm_num

lemma hist_push_min_length {α : Type} {m k : Nat} {h : List α} (d : α)
    (hl : h.length = if k = 0 then 0 else min m (k - 1) + 1) :
    (hist_push (min m k + 1) h d).length = min m k + 1 := by
  unfold hist_push
  simp only []
  by_cases hc : min m k + 1 < (h ++ [d]).length
  · rw [if_pos hc]
    simp only [List.length_drop, List.length_append, List.length_cons, List.length_nil]
    simp only [List.length_append, List.length_cons, List.length_nil] at hc
    split at hl <;> omega
  · rw [if_neg hc]
    simp only [List.length_append, List.length_cons, List.length_nil] at hc ⊢
    split at hl <;> omega

lemma worker_accel_step_ok_hist {keys : List Nat} {m k : Nat} {wst : WSt}
    {xh mt zn : Nat → ℚ} {alpha : List ℚ} {r : WSt × List ℚ}
    (h : worker_accel_step keys m k wst xh mt zn alpha = .ok r) :
    r.1.hist = hist_push (min m k + 1) wst.hist
      (fun key => xh key -
        (if keys.contains key then wst.z key + mt key else wst.x key)) := by
  unfold worker_accel_step at h
  simp only [] at h
  rw [except_bind_ok_iff] at h
  obtain ⟨yVals, _, hok⟩ := h
  have := Except.ok.inj hok
  subst this
  rfl

/-- C8 (claim): after the history update of round `k` every residual
window has length exactly `min(m_accel, k) + 1`, the oldest entry being
evicted first once capacity is exceeded.  Part 1: the iterated update
from an empty window has exactly that length and holds exactly the last
`min(m,k)+1` round residuals.  Part 2: one coordinator round
(`consensus.py:238-240`) maps a window of the round-`(k-1)` length to one
of length `min(m,k)+1`.  Part 3: likewise for one worker round
(`consensus.py:137-139`). -/
theorem history_window_lengths :
    (∀ (m k : Nat) (d : Nat → Nat → ℚ),
      (windowIter m d k).length = min m k + 1 ∧
      windowIter m d k = ((List.range (k + 1)).map d).drop (k - min m k)) ∧
    (∀ (env : Env) (st st2 : St) (zNew : VMap),
      accelStep env st zNew = .ok st2 →
      st.sDiff.length = (if st.k = 0 then 0 else min env.mAccel.toNat (st.k - 1) + 1) →
      st2.sDiff.length = min env.mAccel.toNat st.k + 1) ∧
    (∀ (keys : List Nat) (m k : Nat) (wst : WSt) (xh mt zn : Nat → ℚ)
      (alpha : List ℚ) (r : WSt × List ℚ),
      worker_accel_step keys m k wst xh mt zn alpha = .ok r →
      wst.hist.length = (if k = 0 then 0 else min m (k - 1) + 1) →
      r.1.hist.length = min m k + 1) := by
  refine ⟨?_, ?_, ?_⟩
  · intro m k d
    exact ⟨windowIter_length m d k, windowIter_content m d k⟩
  · intro env st st2 zNew hok hlen
    obtain ⟨_, _, _, hsd, _⟩ := accelStep_ok_fields hok
    rw [hsd]
    exact hist_push_min_length _ hlen
  · intro keys m k wst xh mt zn alpha r hok hlen
    rw [worker_accel_step_ok_hist hok]
    exact hist_push_min_length _ hlen

/-- Witness for `history_window_lengths`: the iterated window at
`m = 1, k = 3`, and a concrete accelerated worker round at
`m_accel = 0, k = 0`. -/
theorem history_window_lengths_witness :
    (windowIter 1 (fun _ => cwZero) 3).length = min 1 3 + 1 ∧
    ((worker_accel_step [0] 0 0 c4St cwOne cwZero cwZero [1]).map
      fun r => r.1.hist.length) = .ok (min 0 0 + 1) := by
  constructor
  · exact (history_window_lengths.1 1 3 (fun _ => cwZero)).1
  · rcases hok : worker_accel_step [0] 0 0 c4St cwOne cwZero cwZero [1] with e | r
    · exfalso
      simp [worker_accel_step, wSum, hist_push, c4St, cwZero, cwOne, findEntry,
        List.mapM, List.mapM.loop, Except.map, Functor.map, Except.bind] at hok
    · have hlen := history_window_lengths.2.2 [0] 0 0 c4St cwOne cwZero cwZero [1] r hok
        (by simp [c4St])
      show Except.ok (r.1.hist.length) = Except.ok (min 0 0 + 1)
      rw [hlen]

lemma except_bind_err_iff {α β : Type} {x : Except RunErr α} {f : α → Except RunErr β}
    {e : RunErr} : x.bind f = .error e ↔
      (x = .error e ∨ ∃ a, x = .ok a ∧ f a = .error e) := by
  cases x <;> simp [Except.bind]

lemma wSum_ok_of (alpha : List ℚ) (hist : List (Nat → ℚ)) (key : Nat) (n : Nat)
    (ha : n ≤ alpha.length) (hh : n ≤ hist.length) :
    ∃ v, wSum alpha hist key n = .ok v := by
  induction n with
  | zero => exact ⟨0, rfl⟩
  | succ n ih =>
      obtain ⟨v, hv⟩ := ih (by omega) (by omega)
      refine ⟨v + alpha.get ⟨n, by omega⟩ * (hist.get ⟨n, by omega⟩) key, ?_⟩
      rw [wSum, hv]
      rw [List.getElem?_eq_getElem (by omega), List.getElem?_eq_getElem (by omega)]
      rfl

lemma mapM_ok_of {α β : Type} (f : α → Except RunErr β) (l : List α)
    (h : ∀ a ∈ l, ∃ b, f a = .ok b) : ∃ bs, l.mapM f = .ok bs := by
  induction l with
  | nil => exact ⟨[], rfl⟩
  | cons a rest ih =>
      obtain ⟨b, hb⟩ := h a (by simp)
      obtain ⟨bs, hbs⟩ := ih (fun a2 ha2 => h a2 (by simp [ha2]))
      refine ⟨b :: bs, ?_⟩
      rw [List.mapM_cons, hb]
      show Except.bind (rest.mapM f) (fun bs2 => pure (b :: bs2)) = Except.ok (b :: bs)
      rw [hbs]
      rfl

lemma accelFinish_ok_of (env : Env) (st : St) (zNew : VMap) (sd2 : List (Nat → ℚ))
    (alpha : List ℚ) (mk : Nat) (r2 : List ℚ)
    (halpha : mk + 1 ≤ alpha.length) (hsd : mk + 1 ≤ sd2.length) :
    ∃ st2, accelFinish env st zNew sd2 alpha mk r2 = .ok st2 := by
  unfold accelFinish
  obtain ⟨bs, hbs⟩ := mapM_ok_of
    (fun key => (wSum alpha sd2 key (mk + 1)).map fun v => (key, v)) env.varKeys
    (fun key _ => by
      obtain ⟨v, hv⟩ := wSum_ok_of alpha sd2 key (mk + 1) halpha hsd
      exact ⟨(key, v), by simp only [hv]; rfl⟩)
  rw [hbs]
  exact ⟨_, rfl⟩

lemma nonAccelStep_ok_of (env : Env) (st : St) (zNew : VMap)
    (hlt : st.k < st.resid.length) :
    ∃ st2, nonAccelStep env st zNew = .ok st2 := by
  unfold nonAccelStep
  simp only []
  rw [residWrite_ok hlt]
  exact ⟨_, rfl⟩

lemma accelStep_ok_of (env : Env) (st : St) (zNew : VMap)
    (hlt : st.k < st.resid.length)
    (hhist : (hist_push (min env.mAccel.toNat st.k + 1) st.sDiff
        (fun key => (vFind st.z key).getD 0 - (vFind zNew key).getD 0)).length =
      min env.mAccel.toNat st.k + 1)
    (halpha : (env.alphaFn ((env.whist st.k).map Prod.fst ++
        [hist_push (min env.mAccel.toNat st.k + 1) st.sDiff
          (fun key => (vFind st.z key).getD 0 - (vFind zNew key).getD 0)])).length =
      min env.mAccel.toNat st.k + 1) :
    ∃ st2, accelStep env st zNew = .ok st2 := by
  unfold accelStep
  simp only []
  rw [residWrite_ok hlt]
  simp only [Except.bind]
  exact accelFinish_ok_of env st zNew _ _ _ _ (le_of_eq halpha.symm) (le_of_eq hhist.symm)

lemma roundBody_ok_of_clean (env : Env) (st : St) (hc : CleanEnv env)
    (hInv : LoopInv env st) (hk : st.k < env.maxIter) :
    ∃ st2, roundBody env st = .ok st2 ∧ st2.k = st.k + 1 ∧ LoopInv env st2 ∧
      (∀ j, j ≠ st.k → st2.resid.getD j 0 = st.resid.getD j 0) ∧
      st2.finished = stopGuard env st2.resid (st.k + 1) := by
  obtain ⟨hzk, hrl, hsd⟩ := hInv
  obtain ⟨hcs, hck, hca⟩ := hc
  have hkm2 : KeysMatch (env.msgs st.k) (vKeys st.z) := by
    rw [hzk]
    exact hck st.k
  obtain ⟨mt, zn, hok, _, hznk⟩ := w_project_ok_of (env.msgs st.k) st.z (hcs st.k) hkm2
  have hlt : st.k < st.resid.length := by omega
  have hznk2 : vKeys zn = env.varKeys := by rw [hznk, hzk]
  by_cases ha : env.anderson
  · have hhist : (hist_push (min env.mAccel.toNat st.k + 1) st.sDiff
        (fun key => (vFind st.z key).getD 0 - (vFind zn key).getD 0)).length =
        min env.mAccel.toNat st.k + 1 :=
      hist_push_min_length _ (hsd ha)
    have halpha : (env.alphaFn ((env.whist st.k).map Prod.fst ++
        [hist_push (min env.mAccel.toNat st.k + 1) st.sDiff
          (fun key => (vFind st.z key).getD 0 - (vFind zn key).getD 0)])).length =
        min env.mAccel.toNat st.k + 1 := by
      rw [hca ha, List.getLastD_concat]
      exact hhist
    obtain ⟨st2, hstep⟩ := accelStep_ok_of env st zn hlt hhist halpha
    obtain ⟨_, hk2, hz2, hsdiff2, hrl2, hpres, hfin2⟩ := accelStep_ok_fields hstep
    refine ⟨st2, ?_, hk2, ⟨by rw [hz2]; exact hznk2, by omega, ?_⟩, hpres, hfin2⟩
    · unfold roundBody
      rw [hok, ha]
      exact hstep
    · intro _
      rw [hsdiff2, hk2]
      simp only [Nat.add_sub_cancel]
      rw [if_neg (by omega)]
      exact hist_push_min_length _ (hsd ha)
  · have ha2 : env.anderson = false := by simpa using ha
    obtain ⟨st2, hstep⟩ := nonAccelStep_ok_of env st zn hlt
    obtain ⟨_, hk2, hz2, _, hrl2, hpres, hsdiff2, hfin2⟩ := nonAccelStep_ok_fields hstep
    refine ⟨st2, ?_, hk2, ⟨by rw [hz2]; exact hznk2, by omega, ?_⟩, hpres, hfin2⟩
    · unfold roundBody
      rw [hok, ha2]
      exact hstep
    · intro hand
      rw [ha2] at hand
      exact absurd hand (by simp)

lemma getD_take {l : List ℚ} {n j : Nat} (h : j < n) :
    (l.take n).getD j 0 = l.getD j 0 := by
  simp [List.getD_eq_getElem?_getD, List.getElem?_take, h]

lemma loopInv_init (env : Env) : LoopInv env (initSt env) := by
  refine ⟨initSt_z_keys env, by simp [initSt], ?_⟩
  intro _
  simp [initSt]

lemma loopGo_clean_spec (env : Env) (hc : CleanEnv env) :
    ∀ (fuel : Nat) (st : St), LoopInv env st → st.finished = false →
    st.k < env.maxIter → env.maxIter ≤ st.k + fuel →
    ∃ stF, loopGo env fuel st = .ok stF ∧ LoopInv env stF ∧ stF.finished = true ∧
      st.k < stF.k ∧ stF.k ≤ env.maxIter ∧
      (∀ j, j < st.k ∨ stF.k ≤ j → stF.resid.getD j 0 = st.resid.getD j 0) ∧
      (stF.k = env.maxIter ∨
        stF.resid.getD (stF.k - 1) 0 ≤ env.epsStop * stF.resid.getD 0 0) ∧
      (∀ j, st.k < j → j < stF.k →
        ¬ (stF.resid.getD (j - 1) 0 ≤ env.epsStop * stF.resid.getD 0 0)) := by
  intro fuel
  induction fuel with
  | zero =>
      intro st _ _ hk hf
      omega
  | succ fuel ih =>
      intro st hInv hfin hk hf
      obtain ⟨st2, hbody, hk2, hInv2, hpres, hfin2⟩ :=
        roundBody_ok_of_clean env st hc hInv hk
      by_cases hguard : st2.finished = true
      · refine ⟨st2, ?_, hInv2, hguard, by omega, by omega, ?_, ?_, ?_⟩
        · rw [loopGo_step env fuel st st2 hfin hbody]
          exact loopGo_fin env fuel st2 hguard
        · intro j hj
          apply hpres
          omega
        · have hg := hguard
          rw [hfin2] at hg
          unfold stopGuard at hg
          have hg2 : env.maxIter ≤ st.k + 1 ∨
              st2.resid.getD (st.k + 1 - 1) 0 ≤ env.epsStop * st2.resid.getD 0 0 := by
            simpa using hg
          rcases hg2 with h1 | h2
          · left
            omega
          · right
            rw [hk2]
            simpa using h2
        · intro j hj1 hj2
          omega
      · have hg2 : st2.finished = false := by
          revert hguard
          cases st2.finished <;> simp
        have hguardeq : stopGuard env st2.resid (st.k + 1) = false := by
          rw [← hfin2]
          exact hg2
        unfold stopGuard at hguardeq
        rw [Bool.or_eq_false_iff] at hguardeq
        obtain ⟨hga, hgb⟩ := hguardeq
        have hlt2 : st2.k < env.maxIter := by
          have := of_decide_eq_false hga
          omega
        obtain ⟨stF, hloop, hInvF, hfinF, hkF1, hkF2, hpresF, hstopF, hmidF⟩ :=
          ih st2 hInv2 hg2 hlt2 (by omega)
        refine ⟨stF, ?_, hInvF, hfinF, by omega, hkF2, ?_, hstopF, ?_⟩
        · rw [loopGo_step env fuel st st2 hfin hbody]
          exact hloop
        · intro j hj
          have h1 : stF.resid.getD j 0 = st2.resid.getD j 0 := by
            apply hpresF
            omega
          rw [h1]
          apply hpres
          omega
        · intro j hj1 hj2
          by_cases hje : j = st2.k
          · subst hje
            have hb := of_decide_eq_false hgb
            have e1 : stF.resid.getD (st2.k - 1) 0 = st2.resid.getD (st2.k - 1) 0 := by
              apply hpresF
              left
              omega
            have e0 : stF.resid.getD 0 0 = st2.resid.getD 0 0 := by
              apply hpresF
              left
              omega
            rw [e1, e0, hk2]
            simpa using hb
          · exact hmidF j (by omega) hj2

/-- C3 (amended): on a run with `max_iter >= 1` in which every local
solve returns an admissible status with matching key sets (and, when
accelerated, the weight routine honours its spec interface), the loop
returns normally after at most `max_iter` rounds with the workers
terminated; it stops exactly when `k >= max_iter` or
`resid[k-1] <= eps_stop * resid[0]` (relative to the first recorded
residual), and the result carries the residual trace truncated to the
rounds actually run together with that iteration count
(`consensus.py:277-284`). -/
theorem consensus_clean_terminates (env : Env) (h1 : 1 ≤ env.maxIter)
    (hm : 0 ≤ env.mAccel) (hc : CleanEnv env) :
    ∃ r : RunResult, consensus env = ⟨.ok r, true, true⟩ ∧
      1 ≤ r.numIters ∧ r.numIters ≤ env.maxIter ∧
      r.residuals.length = r.numIters ∧
      (r.numIters = env.maxIter ∨
        r.residuals.getD (r.numIters - 1) 0 ≤ env.epsStop * r.residuals.getD 0 0) ∧
      (∀ j, 0 < j → j < r.numIters →
        ¬ (r.residuals.getD (j - 1) 0 ≤ env.epsStop * r.residuals.getD 0 0)) := by
  obtain ⟨stF, hloop, hInvF, _, hkF1, hkF2, _, hstop, hmid⟩ :=
    loopGo_clean_spec env hc (env.maxIter + 1) (initSt env) (loopInv_init env) rfl
      (by
        show (0 : Nat) < env.maxIter
        omega)
      (by
        show env.maxIter ≤ 0 + (env.maxIter + 1)
        omega)
  have hkpos : 1 ≤ stF.k := hkF1
  have hrlen : stF.resid.length = env.maxIter := hInvF.2.1
  refine ⟨⟨stF.z, stF.resid.take stF.k, stF.k⟩, ?_, hkpos, hkF2, ?_, ?_, ?_⟩
  · unfold consensus
    rw [if_neg (by omega), hloop]
  · show (stF.resid.take stF.k).length = stF.k
    rw [List.length_take, hrlen]
    omega
  · rcases hstop with h | h
    · exact Or.inl h
    · right
      show (stF.resid.take stF.k).getD (stF.k - 1) 0 ≤
        env.epsStop * (stF.resid.take stF.k).getD 0 0
      rw [getD_take (by omega), getD_take (by omega)]
      exact h
  · intro j hj0 hjn
    have hjn2 : j < stF.k := hjn
    show ¬ ((stF.resid.take stF.k).getD (j - 1) 0 ≤
      env.epsStop * (stF.resid.take stF.k).getD 0 0)
    rw [getD_take (by omega), getD_take (by omega)]
    exact hmid j hj0 hjn2

/-- Witness for `consensus_clean_terminates`: the baseline one-worker
environment with `max_iter = 1`. -/
theorem consensus_clean_terminates_witness :
    ∃ r : RunResult, consensus zeroEnv = ⟨.ok r, true, true⟩ ∧
      1 ≤ r.numIters ∧ r.numIters ≤ zeroEnv.maxIter ∧
      r.residuals.length = r.numIters ∧
      (r.numIters = zeroEnv.maxIter ∨
        r.residuals.getD (r.numIters - 1) 0 ≤
          zeroEnv.epsStop * r.residuals.getD 0 0) ∧
      (∀ j, 0 < j → j < r.numIters →
        ¬ (r.residuals.getD (j - 1) 0 ≤ zeroEnv.epsStop * r.residuals.getD 0 0)) :=
  consensus_clean_terminates zeroEnv (by decide) (by decide)
    ⟨fun j => by
        intro p hp
        simp [zeroEnv] at hp
        rw [hp]
        rfl,
      fun j => by
        intro q
        simp [zeroEnv, unionKeys, vKeys],
      fun h => by simp [zeroEnv] at h⟩

/-- C3 (counterexample): with `max_iter = 0` and a perfectly clean round
the entry point does not return normally but raises `IndexError`, so the
claim fails without the `max_iter >= 1` proviso. -/
theorem consensus_max_iter_zero_not_normal :
    consensus { zeroEnv with maxIter := 0 } = ⟨.error RunErr.idx, true, false⟩ := by
  have hst : StatusesOk (({ zeroEnv with maxIter := 0 } : Env).msgs 0) := by
    intro p hp
    simp [zeroEnv] at hp
    rw [hp]
    rfl
  have hkm : KeysMatch (({ zeroEnv with maxIter := 0 } : Env).msgs 0)
      (vKeys (initSt { zeroEnv with maxIter := 0 }).z) := by
    intro q
    rw [initSt_z_keys]
    simp [zeroEnv, unionKeys, vKeys]
  obtain ⟨mt, zn, hok, _, _⟩ :=
    w_project_ok_of _ (initSt { zeroEnv with maxIter := 0 }).z hst hkm
  have hbody : roundBody { zeroEnv with maxIter := 0 }
      (initSt { zeroEnv with maxIter := 0 }) = .error RunErr.idx := by
    unfold roundBody
    rw [show (initSt { zeroEnv with maxIter := 0 }).k = 0 from rfl, hok]
    rw [show ({ zeroEnv with maxIter := 0 } : Env).anderson = false from rfl]
    simp only [Bool.false_eq_true, if_false]
    exact nonAccelStep_oob _ _ zn (by simp [initSt, zeroEnv])
  unfold consensus
  rw [if_neg (by decide), loopGo_err _ _ _ _ rfl hbody]
